import Mathlib

/-!
# Power-of-two-choices balancer (`selector/p2c/p2c.go`)

A shallow embedding of `Balancer.prePick` and `Balancer.Pick` together with the
pieces of the `selector` package they use.  Effects of the Go code (random
draws, `Pick()` calls on nodes, atomic operations on the flag `lk`) are made
explicit: the random source and the flag are threaded as state, and every
effectful call is appended to a trace.
-/

namespace P2C

/-! ## Data model -/

/-- Error value of the `errors` package as far as the selector uses it:
status code, reason and message. -/
structure Error where
  code : Int
  reason : String
  message : String
deriving DecidableEq, Repr

/-- The constructor `errors.ServiceUnavailable(reason, message)`: status 503. -/
def ServiceUnavailable (reason message : String) : Error :=
  { code := 503, reason := reason, message := message }

/-- The value `selector.ErrNoAvailable` (`selector.go`, line 10). -/
def ErrNoAvailable : Error :=
  ServiceUnavailable "no_available_node" ""

/-- Modelled from the spec: the `selector.WeightedNode` interface, whose declaration is
not part of the two source files.  A node is seen through the observations
`Weight()` and `PickElapsed()` that `Balancer.Pick` makes of it, plus its
`Address()` as identity.  The weight is "a non-negative real" in the spec and is
only ever compared, so its type `W` is a parameter carrying a linear order;
`PickElapsed()` is a `time.Duration`, a count of nanoseconds. -/
structure WeightedNode (W : Type) where
  Address : String
  Weight : W
  PickElapsed : Int
deriving DecidableEq, Repr

/-- Effectful calls made by the balancer, in program order. -/
inductive Event (W : Type) where
  /-- The call `s.r.Intn(n)` returned `v`. -/
  | intn (n : Int) (v : Nat)
  /-- The call `x.Pick()` on node `x`. -/
  | pick (x : WeightedNode W)
  /-- The call `atomic.CompareAndSwapInt64(&s.lk, 0, 1)` and whether it swapped. -/
  | cas (swapped : Bool)
  /-- The call `atomic.StoreInt64(&s.lk, 0)`. -/
  | store
deriving DecidableEq, Repr

/-- Trace of effectful calls, oldest first. -/
abbrev Trace (W : Type) := List (Event W)

/-- A completion callback (`selector.DoneFunc`), identified by the node whose
`Pick()` produced it and by the position of that call in the trace. -/
structure DoneFunc (W : Type) where
  owner : WeightedNode W
  serial : Nat
deriving DecidableEq, Repr

/-- The method `Pick()` of a node: it is recorded in the trace and hands back a fresh
completion callback. -/
def WeightedNode.Pick {W : Type} (x : WeightedNode W) (t : Trace W) : DoneFunc W × Trace W :=
  ({ owner := x, serial := t.length }, t ++ [Event.pick x])

/-- The random source `*rand.Rand`: the stream of raw values it is going to produce and
the number of values consumed so far. -/
structure Rand where
  next : Nat → Nat
  pos : Nat

/-- The `k`-th raw value the source will produce from now on. -/
def Rand.peek (r : Rand) (k : Nat) : Nat :=
  r.next (r.pos + k)

/-- The method `Intn(n)`: a value of `[0, n)`, or a run-time failure (`none`) when
`n <= 0`.  One raw value is consumed. -/
def Rand.Intn (r : Rand) (n : Int) : Option (Nat × Rand) :=
  if n ≤ 0 then none
  else some (r.peek 0 % n.toNat, { r with pos := r.pos + 1 })

/-- The constant `time.Second`, in nanoseconds. -/
def Second : Int := 1000000000

/-- The constant `forcePick = time.Second * 3` (`p2c.go`, line 15). -/
def forcePick : Int := Second * 3

/-- The struct `Balancer` (`p2c.go`, lines 49-53): random source and the flag `lk`. -/
structure Balancer where
  r : Rand
  lk : Int

/-- The call `atomic.CompareAndSwapInt64(&s.lk, old, new)`. -/
def Balancer.CompareAndSwapLk (s : Balancer) (old new : Int) : Bool × Balancer :=
  if s.lk = old then (true, { s with lk := new }) else (false, s)

/-- The call `atomic.StoreInt64(&s.lk, v)`. -/
def Balancer.StoreLk (s : Balancer) (v : Int) : Balancer :=
  { s with lk := v }

/-- The triple `(selector.WeightedNode, selector.DoneFunc, error)` returned by
`Balancer.Pick`; `none` stands for Go's `nil`. -/
structure PickResult (W : Type) where
  node : Option (WeightedNode W)
  done : Option (DoneFunc W)
  err : Option Error
deriving DecidableEq, Repr

/-! ## The balancer -/

section Code

variable {W : Type} [LinearOrder W]

/-- The index adjustment of `prePick` (`p2c.go`, lines 60-62):
`if b >= a { b = b + 1 }`. -/
def adjust (a b : Nat) : Nat :=
  if b ≥ a then b + 1 else b

/-- The method `Balancer.prePick` (`p2c.go`, lines 57-65).  `none` is a run-time failure:
`Intn` with a non-positive bound, or a slice index out of range. -/
def Balancer.prePick (s : Balancer) (t : Trace W) (nodes : List (WeightedNode W)) :
    Option ((WeightedNode W × WeightedNode W) × Balancer × Trace W) :=
  match s.r.Intn (nodes.length : Int) with
  | none => none
  | some (a, r1) =>
    match r1.Intn ((nodes.length : Int) - 1) with
    | none => none
    | some (b0, r2) =>
      let b := adjust a b0
      match nodes[a]?, nodes[b]? with
      | some nodeA, some nodeB =>
        some ((nodeA, nodeB), { s with r := r2 },
          t ++ [Event.intn (nodes.length : Int) a, Event.intn ((nodes.length : Int) - 1) b0])
      | _, _ => none

/-- The method `Balancer.Pick` (`p2c.go`, lines 68-96).  The result is `none` when the Go
code fails at run time, and otherwise the returned triple with the balancer and
the trace after the call. -/
def Balancer.Pick (s : Balancer) (t : Trace W) (nodes : List (WeightedNode W)) :
    Option (PickResult W × Balancer × Trace W) :=
  if nodes.length = 0 then
    some ({ node := none, done := none, err := some ErrNoAvailable }, s, t)
  else if nodes.length = 1 then
    match nodes[0]? with
    | none => none
    | some x =>
      let (done, t1) := x.Pick t
      some ({ node := some x, done := some done, err := none }, s, t1)
  else
    match s.prePick t nodes with
    | none => none
    | some ((nodeA, nodeB), s1, t1) =>
      let (pc, upc) :=
        if nodeB.Weight > nodeA.Weight then (nodeB, nodeA) else (nodeA, nodeB)
      let (pc, s2, t2) :=
        if upc.PickElapsed > forcePick then
          match s1.CompareAndSwapLk 0 1 with
          | (true, s') => (upc, s'.StoreLk 0, t1 ++ [Event.cas true, Event.store])
          | (false, s') => (pc, s', t1 ++ [Event.cas false])
        else (pc, s1, t1)
      let (done, t3) := pc.Pick t2
      some ({ node := some pc, done := some done, err := none }, s2, t3)

end Code

/-! ## Sample inputs -/

/-- A random source whose next two raw values are `a` and `b`. -/
def randOf (a b : Nat) : Rand :=
  { next := fun i => if i = 0 then a else b, pos := 0 }

/-- A freshly built balancer (`Builder.Build`, `p2c.go`, lines 115-117) over a given
random source: the flag is zero-initialised. -/
def balancerOf (a b : Nat) : Balancer :=
  { r := randOf a b, lk := 0 }

/-- A node with weight 5, last picked one second ago. -/
def nodeW5 : WeightedNode Nat :=
  { Address := "10.0.0.5:8000", Weight := 5, PickElapsed := Second }

/-- A node with weight 1, last picked exactly `forcePick` ago. -/
def nodeW1 : WeightedNode Nat :=
  { Address := "10.0.0.1:8000", Weight := 1, PickElapsed := forcePick }

/-- A node with weight 1 that has not been picked for four seconds. -/
def nodeIdle : WeightedNode Nat :=
  { Address := "10.0.0.9:8000", Weight := 1, PickElapsed := 4 * Second }

/-- A second node with weight 5, last picked two seconds ago. -/
def nodeW5b : WeightedNode Nat :=
  { Address := "10.0.0.6:8000", Weight := 5, PickElapsed := 2 * Second }

/-- A node with weight 9 that has just been picked. -/
def nodeW9 : WeightedNode Nat :=
  { Address := "10.0.0.7:8000", Weight := 9, PickElapsed := 0 }

/-- Five distinct nodes. -/
def fiveNodes : List (WeightedNode Nat) :=
  [nodeW5, nodeW1, nodeIdle, nodeW5b, nodeW9]

/-- A balancer whose flag is held on entry. -/
def balancerHeld (a b : Nat) : Balancer :=
  { r := randOf a b, lk := 1 }


/-! ## Vocabulary of the statements -/

/-- The situation of one `prePick` call on a sequence of length `n`: the random source
of `s` answers `Intn(n)` with `a` in `[0, n)` and then `Intn(n-1)` with `b` in `[0, n-1)`. -/
structure Draws (s : Balancer) (n a b : Nat) : Prop where
  two_le : 2 ≤ n
  a_lt : a < n
  b_lt : b < n - 1
  first : s.r.peek 0 % n = a
  second : s.r.peek 1 % (n - 1) = b

/-- The balancer after `prePick`: two raw values of the random source are consumed. -/
def Balancer.afterDraws (s : Balancer) : Balancer :=
  { s with r := { s.r with pos := s.r.pos + 2 } }

/-- The two `Intn` events of one `prePick` call on a sequence of length `n`. -/
def drawEvents (W : Type) (n a b : Nat) : Trace W :=
  [Event.intn (n : Int) a, Event.intn ((n : Int) - 1) b]

/-- The index pair computed by `prePick` from the draws `(a, b)` (`p2c.go`, lines 58-63). -/
def prePickIdx (p : Nat × Nat) : Nat × Nat :=
  (p.1, adjust p.1 p.2)

/-- The pair of nodes `Balancer.prePick` returns on `nodes` when the random source
answers its two `Intn` calls with `p.1` and `p.2`; `none` when `prePick` fails. -/
def drawnPair {W : Type} (nodes : List (WeightedNode W)) (p : Nat × Nat) :
    Option (WeightedNode W × WeightedNode W) :=
  ((balancerOf p.1 p.2).prePick [] nodes).map (fun res => res.1)

/-- The receiver of the `Pick()` call an event records, if it records one. -/
def Event.receiver {W : Type} : Event W → Option (WeightedNode W)
  | Event.pick x => some x
  | _ => none

/-- The nodes on which `Pick()` was called in a trace, in program order. -/
def pickedNodes {W : Type} (t : Trace W) : List (WeightedNode W) :=
  t.filterMap Event.receiver

/-- The method `Builder.Build` (`p2c.go`, lines 115-117): a balancer over a fresh random
source (seeded from the clock, hence a parameter here); `lk` has its zero value. -/
def Builder.Build (r : Rand) : Balancer :=
  { r := r, lk := 0 }

section Runs

variable {W : Type} [LinearOrder W]

/-- A sequential run: `Pick` is called on each node sequence of `calls` in turn, every
call starting from the balancer and trace the previous one left. -/
def runPicks (s : Balancer) (t : Trace W) :
    List (List (WeightedNode W)) → Option (Balancer × Trace W)
  | [] => some (s, t)
  | nodes :: rest =>
    match s.Pick t nodes with
    | none => none
    | some (_, s1, t1) => runPicks s1 t1 rest

/-! ### Concurrent calls

`Balancer.Pick` cut at its atomic operations on `lk`, so that several calls on one
balancer can be interleaved. -/

/-- Where one call of `Balancer.Pick` stands. -/
inductive Call (W : Type) where
  /-- At line 68, called with `nodes`. -/
  | entry (nodes : List (WeightedNode W))
  /-- At line 90, before the condition is evaluated. -/
  | test (pc upc : WeightedNode W)
  /-- At line 91: the compare-and-swap of line 90 succeeded, the flag is held. -/
  | holding (pc upc : WeightedNode W)
  /-- At line 94, before `pc.Pick()`; `forced` tells whether lines 91-92 were run. -/
  | picking (pc : WeightedNode W) (forced : Bool)
  /-- The call has returned `res`. -/
  | returned (res : PickResult W) (forced : Bool)
  /-- The call failed at run time. -/
  | crashed
deriving DecidableEq, Repr

/-- One step of one call, up to and including its next effect on the shared balancer
or on a node (`p2c.go`, lines 69-86, line 90, lines 91-92, lines 94-95). -/
def Call.step (s : Balancer) (t : Trace W) : Call W → Call W × Balancer × Trace W
  | Call.entry nodes =>
    if nodes.length = 0 then
      (Call.returned { node := none, done := none, err := some ErrNoAvailable } false, s, t)
    else if nodes.length = 1 then
      match nodes[0]? with
      | none => (Call.crashed, s, t)
      | some x => (Call.picking x false, s, t)
    else
      match s.prePick t nodes with
      | none => (Call.crashed, s, t)
      | some ((nodeA, nodeB), s1, t1) =>
        let (pc, upc) :=
          if nodeB.Weight > nodeA.Weight then (nodeB, nodeA) else (nodeA, nodeB)
        (Call.test pc upc, s1, t1)
  | Call.test pc upc =>
    if upc.PickElapsed > forcePick then
      match s.CompareAndSwapLk 0 1 with
      | (true, s') => (Call.holding pc upc, s', t ++ [Event.cas true])
      | (false, s') => (Call.picking pc false, s', t ++ [Event.cas false])
    else (Call.picking pc false, s, t)
  | Call.holding _ upc => (Call.picking upc true, s.StoreLk 0, t ++ [Event.store])
  | Call.picking pc forced =>
    let (done, t1) := pc.Pick t
    (Call.returned { node := some pc, done := some done, err := none } forced, s, t1)
  | Call.returned res forced => (Call.returned res forced, s, t)
  | Call.crashed => (Call.crashed, s, t)

/-- One balancer, the trace so far, and the calls of `Pick` in progress on it. -/
structure System (W : Type) where
  s : Balancer
  trace : Trace W
  calls : List (Call W)

/-- The scheduler lets call number `i` make its next step. -/
def System.step (sys : System W) (i : Nat) : System W :=
  match sys.calls[i]? with
  | none => sys
  | some c =>
    match c.step sys.s sys.trace with
    | (c1, s1, t1) => { s := s1, trace := t1, calls := sys.calls.set i c1 }

/-- The system after a schedule: the calls step in the listed order. -/
def System.run (sys : System W) (sched : List Nat) : System W :=
  sched.foldl System.step sys

/-- A freshly built balancer on which `Pick` has just been called once for every node
sequence of `inputs`. -/
def System.init (r : Rand) (inputs : List (List (WeightedNode W))) : System W :=
  { s := Builder.Build r, trace := [], calls := inputs.map Call.entry }

/-- The call holds the flag: it is between its successful compare-and-swap and its
store. -/
def Call.holdsFlag : Call W → Bool
  | Call.holding _ _ => true
  | _ => false

/-- The call has overridden the provisional pick (won the compare-and-swap of line 90)
and has not returned yet. -/
def Call.forcedInFlight : Call W → Bool
  | Call.holding _ _ => true
  | Call.picking _ forced => forced
  | _ => false

end Runs

/-! ## Basic facts about the embedding -/

section Lemmas

variable {W : Type} [LinearOrder W]

theorem adjust_ne (a b : Nat) : adjust a b ≠ a := by
  unfold adjust
  split <;> omega

theorem adjust_lt {n a b : Nat} (hb : b < n - 1) : adjust a b < n := by
  unfold adjust
  split <;> omega

omit [LinearOrder W] in
theorem prePick_of_draws {s : Balancer} {nodes : List (WeightedNode W)} {a b : Nat}
    {nodeA nodeB : WeightedNode W} (t : Trace W) (h : Draws s nodes.length a b)
    (hA : nodes[a]? = some nodeA) (hB : nodes[adjust a b]? = some nodeB) :
    s.prePick t nodes
      = some ((nodeA, nodeB), s.afterDraws, t ++ drawEvents W nodes.length a b) := by
  obtain ⟨h2, ha, hb, h0, h1⟩ := h
  have hn : ¬ ((nodes.length : Int) ≤ 0) := by omega
  have hn1 : ¬ ((nodes.length : Int) - 1 ≤ 0) := by omega
  have e1 : ((nodes.length : Int) - 1).toNat = nodes.length - 1 := by omega
  have hpeek : Rand.peek { next := s.r.next, pos := s.r.pos + 1 } 0 % (nodes.length - 1) = b := by
    simpa [Rand.peek] using h1
  simp only [Balancer.prePick, Rand.Intn, hn, hn1, if_false, h0, hpeek, e1, Int.toNat_ofNat,
    hA, hB, Balancer.afterDraws, drawEvents]

/-- No override because the unpicked node is not idle long enough. -/
theorem Pick_plain {s : Balancer} {nodes : List (WeightedNode W)} {a b : Nat}
    {nodeA nodeB pc upc : WeightedNode W} (t : Trace W) (h : Draws s nodes.length a b)
    (hA : nodes[a]? = some nodeA) (hB : nodes[adjust a b]? = some nodeB)
    (hp : (if nodeB.Weight > nodeA.Weight then (nodeB, nodeA) else (nodeA, nodeB)) = (pc, upc))
    (hel : upc.PickElapsed ≤ forcePick) :
    s.Pick t nodes
      = some ({ node := some pc,
                done := some { owner := pc, serial := t.length + 2 },
                err := none },
              s.afterDraws, t ++ drawEvents W nodes.length a b ++ [Event.pick pc]) := by
  have h0 : ¬ nodes.length = 0 := by have := h.two_le; omega
  have h1 : ¬ nodes.length = 1 := by have := h.two_le; omega
  have hel' : ¬ upc.PickElapsed > forcePick := not_lt.mpr hel
  simp only [Balancer.Pick, h0, h1, if_false, prePick_of_draws t h hA hB, hp, hel',
    WeightedNode.Pick, drawEvents, List.length_append, List.length_cons, List.length_nil]

/-- Override: the unpicked node is idle and the flag is free. -/
theorem Pick_override {s : Balancer} {nodes : List (WeightedNode W)} {a b : Nat}
    {nodeA nodeB pc upc : WeightedNode W} (t : Trace W) (h : Draws s nodes.length a b)
    (hA : nodes[a]? = some nodeA) (hB : nodes[adjust a b]? = some nodeB)
    (hp : (if nodeB.Weight > nodeA.Weight then (nodeB, nodeA) else (nodeA, nodeB)) = (pc, upc))
    (hel : upc.PickElapsed > forcePick) (hlk : s.lk = 0) :
    s.Pick t nodes
      = some ({ node := some upc,
                done := some { owner := upc, serial := t.length + 4 },
                err := none },
              s.afterDraws,
              t ++ drawEvents W nodes.length a b ++ [Event.cas true, Event.store]
                ++ [Event.pick upc]) := by
  have h0 : ¬ nodes.length = 0 := by have := h.two_le; omega
  have h1 : ¬ nodes.length = 1 := by have := h.two_le; omega
  obtain ⟨r, lk⟩ := s
  simp only at hlk
  subst hlk
  simp only [Balancer.Pick, h0, h1, if_false, prePick_of_draws t h hA hB, hp, hel, if_true,
    WeightedNode.Pick, drawEvents, List.length_append, List.length_cons, List.length_nil,
    Balancer.CompareAndSwapLk, Balancer.StoreLk, Balancer.afterDraws]

/-- No override because the flag is not free: one failed compare-and-swap. -/
theorem Pick_held {s : Balancer} {nodes : List (WeightedNode W)} {a b : Nat}
    {nodeA nodeB pc upc : WeightedNode W} (t : Trace W) (h : Draws s nodes.length a b)
    (hA : nodes[a]? = some nodeA) (hB : nodes[adjust a b]? = some nodeB)
    (hp : (if nodeB.Weight > nodeA.Weight then (nodeB, nodeA) else (nodeA, nodeB)) = (pc, upc))
    (hel : upc.PickElapsed > forcePick) (hlk : s.lk ≠ 0) :
    s.Pick t nodes
      = some ({ node := some pc,
                done := some { owner := pc, serial := t.length + 3 },
                err := none },
              s.afterDraws,
              t ++ drawEvents W nodes.length a b ++ [Event.cas false] ++ [Event.pick pc]) := by
  have h0 : ¬ nodes.length = 0 := by have := h.two_le; omega
  have h1 : ¬ nodes.length = 1 := by have := h.two_le; omega
  simp only [Balancer.Pick, h0, h1, if_false, prePick_of_draws t h hA hB, hp, hel, if_true,
    WeightedNode.Pick, drawEvents, List.length_append, List.length_cons, List.length_nil,
    Balancer.CompareAndSwapLk, Balancer.StoreLk, Balancer.afterDraws, hlk]

/-- Solving `adjust a b = c` for `b`, for a target `c` other than `a`. -/
theorem adjust_eq_iff {a b c : Nat} (hc : c ≠ a) :
    adjust a b = c ↔ b = if a < c then c - 1 else c := by
  unfold adjust
  split <;> split <;> omega

/-- The draws that make `prePick` choose the ordered index pair `(i, j)`. -/
theorem prePickIdx_eq_iff {p : Nat × Nat} {i j : Nat} (hij : i ≠ j) :
    prePickIdx p = (i, j) ↔ p = (i, if i < j then j - 1 else j) := by
  obtain ⟨a, b⟩ := p
  simp only [prePickIdx, Prod.mk.injEq]
  constructor
  · rintro ⟨rfl, h⟩
    exact ⟨rfl, (adjust_eq_iff (Ne.symm hij)).mp h⟩
  · rintro ⟨rfl, h⟩
    exact ⟨rfl, (adjust_eq_iff (Ne.symm hij)).mpr h⟩

/-- The empty sequence: error, nothing else happens. -/
theorem pick_nil (s : Balancer) (t : Trace W) :
    s.Pick t ([] : List (WeightedNode W))
      = some ({ node := none, done := none, err := some ErrNoAvailable }, s, t) := by
  simp [Balancer.Pick]

/-- A one-element sequence: its node is picked, the balancer is not used. -/
theorem pick_single (s : Balancer) (t : Trace W) (x : WeightedNode W) :
    s.Pick t [x]
      = some ({ node := some x, done := some (x.Pick t).1, err := none }, s, (x.Pick t).2) := by
  simp [Balancer.Pick]

/-- Every balancer state yields some pair of draws on a sequence of two or more nodes. -/
theorem draws_exist (s : Balancer) {n : Nat} (hn : 2 ≤ n) :
    Draws s n (s.r.peek 0 % n) (s.r.peek 1 % (n - 1)) :=
  { two_le := hn
    a_lt := Nat.mod_lt _ (by omega)
    b_lt := Nat.mod_lt _ (by omega)
    first := rfl
    second := rfl }

/-- The code's choice of provisional pick, as a case distinction. -/
theorem provisional_cases (nodeA nodeB : WeightedNode W) :
    ∃ pc upc, (if nodeB.Weight > nodeA.Weight then (nodeB, nodeA) else (nodeA, nodeB)) = (pc, upc)
      ∧ ((pc = nodeA ∧ upc = nodeB) ∨ (pc = nodeB ∧ upc = nodeA)) := by
  by_cases hw : nodeB.Weight > nodeA.Weight
  · exact ⟨nodeB, nodeA, by simp [hw], Or.inr ⟨rfl, rfl⟩⟩
  · exact ⟨nodeA, nodeB, by simp [hw], Or.inl ⟨rfl, rfl⟩⟩

/-- On two or more nodes `Pick` returns one of the two drawn nodes, a callback and no
error. -/
theorem Pick_of_draws {s : Balancer} {nodes : List (WeightedNode W)} {a b : Nat}
    {nodeA nodeB : WeightedNode W} (t : Trace W) (h : Draws s nodes.length a b)
    (hA : nodes[a]? = some nodeA) (hB : nodes[adjust a b]? = some nodeB) :
    ∃ x done s1 t1,
      s.Pick t nodes = some ({ node := some x, done := some done, err := none }, s1, t1)
        ∧ (x = nodeA ∨ x = nodeB) := by
  obtain ⟨pc, upc, hp, hcase⟩ := provisional_cases nodeA nodeB
  have hpc : pc = nodeA ∨ pc = nodeB := by
    rcases hcase with ⟨h1, _⟩ | ⟨h1, _⟩
    · exact Or.inl h1
    · exact Or.inr h1
  have hupc : upc = nodeA ∨ upc = nodeB := by
    rcases hcase with ⟨_, h1⟩ | ⟨_, h1⟩
    · exact Or.inr h1
    · exact Or.inl h1
  by_cases hel : upc.PickElapsed > forcePick
  · by_cases hlk : s.lk = 0
    · exact ⟨upc, _, _, _, Pick_override t h hA hB hp hel hlk, hupc⟩
    · exact ⟨pc, _, _, _, Pick_held t h hA hB hp hel hlk, hpc⟩
  · exact ⟨pc, _, _, _, Pick_plain t h hA hB hp (not_lt.mp hel), hpc⟩

omit [LinearOrder W] in
/-- The two drawn positions hold nodes. -/
theorem drawn_nodes_exist {s : Balancer} {nodes : List (WeightedNode W)} {a b : Nat}
    (h : Draws s nodes.length a b) :
    ∃ nodeA nodeB, nodes[a]? = some nodeA ∧ nodes[adjust a b]? = some nodeB :=
  ⟨nodes.get ⟨a, h.a_lt⟩, nodes.get ⟨adjust a b, adjust_lt h.b_lt⟩,
    List.getElem?_eq_getElem h.a_lt, List.getElem?_eq_getElem (adjust_lt h.b_lt)⟩

/-- The provisional pick described in words (the node of strictly greater weight, or the
first-drawn node on a tie) is the one the code's comparison selects. -/
theorem provisional_eq {nodeA nodeB pc upc : WeightedNode W}
    (hd : (upc.Weight < pc.Weight ∧ ((pc = nodeA ∧ upc = nodeB) ∨ (pc = nodeB ∧ upc = nodeA)))
      ∨ (nodeA.Weight = nodeB.Weight ∧ pc = nodeA ∧ upc = nodeB)) :
    (if nodeB.Weight > nodeA.Weight then (nodeB, nodeA) else (nodeA, nodeB)) = (pc, upc) := by
  rcases hd with ⟨hlt, ⟨rfl, rfl⟩ | ⟨rfl, rfl⟩⟩ | ⟨hw, rfl, rfl⟩
  · simp [not_lt.mpr hlt.le]
  · simp [hlt]
  · simp [hw]

/-- On two or more nodes: the result of `Pick` with its trace spelled out.  Between the
two draws and the `Pick()` call on the returned node lie no events, one failed
compare-and-swap, or a successful compare-and-swap followed by the store. -/
theorem Pick_trace {s : Balancer} {nodes : List (WeightedNode W)} {a b : Nat}
    {nodeA nodeB : WeightedNode W} (t : Trace W) (h : Draws s nodes.length a b)
    (hA : nodes[a]? = some nodeA) (hB : nodes[adjust a b]? = some nodeB) :
    ∃ x mid, (x = nodeA ∨ x = nodeB)
      ∧ (mid = [] ∨ mid = [Event.cas false] ∨ mid = [Event.cas true, Event.store])
      ∧ s.Pick t nodes
          = some ({ node := some x,
                    done := some (x.Pick (t ++ (drawEvents W nodes.length a b ++ mid))).1,
                    err := none },
                  s.afterDraws,
                  t ++ (drawEvents W nodes.length a b ++ mid ++ [Event.pick x])) := by
  obtain ⟨pc, upc, hp, hcase⟩ := provisional_cases nodeA nodeB
  have hpc : pc = nodeA ∨ pc = nodeB := by
    rcases hcase with ⟨h1, _⟩ | ⟨h1, _⟩
    · exact Or.inl h1
    · exact Or.inr h1
  have hupc : upc = nodeA ∨ upc = nodeB := by
    rcases hcase with ⟨_, h1⟩ | ⟨_, h1⟩
    · exact Or.inr h1
    · exact Or.inl h1
  by_cases hel : upc.PickElapsed > forcePick
  · by_cases hlk : s.lk = 0
    · refine ⟨upc, [Event.cas true, Event.store], hupc, Or.inr (Or.inr rfl), ?_⟩
      rw [Pick_override t h hA hB hp hel hlk]
      simp [WeightedNode.Pick, drawEvents]
    · refine ⟨pc, [Event.cas false], hpc, Or.inr (Or.inl rfl), ?_⟩
      rw [Pick_held t h hA hB hp hel hlk]
      simp [WeightedNode.Pick, drawEvents]
  · refine ⟨pc, [], hpc, Or.inl rfl, ?_⟩
    rw [Pick_plain t h hA hB hp (not_lt.mp hel)]
    simp [WeightedNode.Pick, drawEvents]

omit [LinearOrder W] in
/-- The method `prePick` succeeds exactly on sequences of two or more nodes. -/
theorem prePick_isSome_iff (s : Balancer) (t : Trace W) (nodes : List (WeightedNode W)) :
    (s.prePick t nodes).isSome ↔ 2 ≤ nodes.length := by
  constructor
  · intro hsome
    by_contra hlt
    have hcases : nodes.length = 0 ∨ nodes.length = 1 := by omega
    rcases hcases with h0 | h1
    · simp [Balancer.prePick, Rand.Intn, h0] at hsome
    · simp [Balancer.prePick, Rand.Intn, h1] at hsome
  · intro h2
    have h := draws_exist s h2
    obtain ⟨nodeA, nodeB, hA, hB⟩ := drawn_nodes_exist h
    rw [prePick_of_draws t h hA hB]
    rfl

/-- What every call of `Pick` does, whatever its input: it returns, it leaves `lk` as it
found it, a successful compare-and-swap and a store come together, and it draws random
numbers, with positive bounds, exactly on sequences of two or more nodes. -/
theorem Pick_summary (s : Balancer) (t : Trace W) (nodes : List (WeightedNode W)) :
    ∃ res s1 ext, s.Pick t nodes = some (res, s1, t ++ ext)
      ∧ s1.lk = s.lk
      ∧ (Event.cas true ∈ ext ↔ Event.store ∈ ext)
      ∧ ((∃ n v, Event.intn n v ∈ ext) ↔ 2 ≤ nodes.length)
      ∧ ∀ n v, Event.intn n v ∈ ext → 0 < n := by
  match nodes with
  | [] =>
    exact ⟨{ node := none, done := none, err := some ErrNoAvailable }, s, [],
      by simp [pick_nil], rfl, by simp, by simp, by simp⟩
  | [x] =>
    exact ⟨{ node := some x, done := some (x.Pick t).1, err := none }, s, [Event.pick x],
      by simp [pick_single, WeightedNode.Pick], rfl, by simp, by simp, by simp⟩
  | x :: y :: rest =>
    have h2 : 2 ≤ (x :: y :: rest).length := by simp
    have h := draws_exist s h2
    obtain ⟨nodeA, nodeB, hA, hB⟩ := drawn_nodes_exist h
    obtain ⟨z, mid, _, hmid, hpick⟩ := Pick_trace t h hA hB
    refine ⟨_, _, _, hpick, rfl, ?_, ?_, ?_⟩
    · rcases hmid with rfl | rfl | rfl <;> simp [drawEvents]
    · constructor
      · intro _
        exact h2
      · intro _
        exact ⟨((x :: y :: rest).length : Int), s.r.peek 0 % (x :: y :: rest).length,
          by simp [drawEvents]⟩
    · intro n v hmem
      simp only [List.mem_append, drawEvents, List.mem_cons, List.mem_singleton,
        List.not_mem_nil, or_false] at hmem
      rcases hmem with ((h1 | h1) | h1) | h1
      · injection h1 with h1 _
        rw [h1]
        simp only [List.length_cons]
        omega
      · injection h1 with h1 _
        rw [h1]
        simp only [List.length_cons]
        omega
      · rcases hmid with rfl | rfl | rfl <;> simp at h1
      · cases h1

/-- On two or more nodes: the position of the node `Pick` returns.  It is the first
drawn position exactly when "the second-drawn node is heavier" and "the override
happens" are both true or both false. -/
theorem Pick_position {s : Balancer} {nodes : List (WeightedNode W)} {a b : Nat}
    {nodeA nodeB : WeightedNode W} (t : Trace W) (h : Draws s nodes.length a b)
    (hA : nodes[a]? = some nodeA) (hB : nodes[adjust a b]? = some nodeB) :
    ∃ x done s1 t1,
      s.Pick t nodes = some ({ node := some x, done := some done, err := none }, s1, t1)
      ∧ nodes[if (nodeB.Weight > nodeA.Weight ↔
            ((if nodeB.Weight > nodeA.Weight then nodeA else nodeB).PickElapsed > forcePick
              ∧ s.lk = 0))
          then a else adjust a b]? = some x := by
  by_cases hw : nodeB.Weight > nodeA.Weight
  · have hp : (if nodeB.Weight > nodeA.Weight then (nodeB, nodeA) else (nodeA, nodeB))
        = (nodeB, nodeA) := by simp [hw]
    by_cases hel : nodeA.PickElapsed > forcePick
    · by_cases hlk : s.lk = 0
      · exact ⟨nodeA, _, _, _, Pick_override t h hA hB hp hel hlk, by simp [hw, hel, hlk, hA]⟩
      · exact ⟨nodeB, _, _, _, Pick_held t h hA hB hp hel hlk, by simp [hw, hlk, hB]⟩
    · exact ⟨nodeB, _, _, _, Pick_plain t h hA hB hp (not_lt.mp hel), by simp [hw, hel, hB]⟩
  · have hp : (if nodeB.Weight > nodeA.Weight then (nodeB, nodeA) else (nodeA, nodeB))
        = (nodeA, nodeB) := by simp [hw]
    by_cases hel : nodeB.PickElapsed > forcePick
    · by_cases hlk : s.lk = 0
      · exact ⟨nodeB, _, _, _, Pick_override t h hA hB hp hel hlk, by simp [hw, hel, hlk, hB]⟩
      · exact ⟨nodeA, _, _, _, Pick_held t h hA hB hp hel hlk, by simp [hw, hlk, hA]⟩
    · exact ⟨nodeA, _, _, _, Pick_plain t h hA hB hp (not_lt.mp hel), by simp [hw, hel, hA]⟩

/-- A sequential run from a balancer whose flag is free completes and leaves the flag
free. -/
theorem runPicks_lk (calls : List (List (WeightedNode W))) :
    ∀ (s : Balancer) (t : Trace W), s.lk = 0 →
      ∃ s1 t1, runPicks s t calls = some (s1, t1) ∧ s1.lk = 0 := by
  induction calls with
  | nil =>
    intro s t hlk
    exact ⟨s, t, rfl, hlk⟩
  | cons nodes rest ih =>
    intro s t hlk
    obtain ⟨res, s1, ext, hpick, hlk1, _⟩ := Pick_summary s t nodes
    obtain ⟨s2, t2, hrun, hlk2⟩ := ih s1 (t ++ ext) (hlk1.trans hlk)
    exact ⟨s2, t2, by simp only [runPicks, hpick, hrun], hlk2⟩

omit [LinearOrder W] in
/-- The method `prePick` does not touch the flag. -/
theorem prePick_lk {s s1 : Balancer} {t t1 : Trace W} {nodes : List (WeightedNode W)}
    {p : WeightedNode W × WeightedNode W} (h : s.prePick t nodes = some (p, s1, t1)) :
    s1.lk = s.lk := by
  unfold Balancer.prePick at h
  split at h
  · cases h
  · split at h
    · cases h
    · dsimp only at h
      split at h
      · simp only [Option.some.injEq, Prod.mk.injEq] at h
        obtain ⟨_, hs, _⟩ := h
        rw [← hs]
      · cases h

/-- Replacing one element of a list shifts a count by what the old and the new element
contribute. -/
theorem countP_set_add {α : Type} (p : α → Bool) (l : List α) (i : Nat) (c0 c1 : α)
    (h : l[i]? = some c0) :
    (l.set i c1).countP p + (if p c0 then 1 else 0)
      = l.countP p + (if p c1 then 1 else 0) := by
  induction l generalizing i with
  | nil => simp at h
  | cons x xs ih =>
    cases i with
    | zero =>
      simp only [List.getElem?_cons_zero, Option.some.injEq] at h
      subst h
      simp only [List.set_cons_zero, List.countP_cons]
      omega
    | succ j =>
      simp only [List.getElem?_cons_succ] at h
      have := ih j h
      simp only [List.set_cons_succ, List.countP_cons]
      omega

/-- One step of a call either leaves flag and holding status alone, or acquires the free
flag, or releases the flag it holds. -/
theorem Call.step_acquires_or_releases (s : Balancer) (t : Trace W) (c : Call W) :
    ((c.step s t).1.holdsFlag = c.holdsFlag ∧ (c.step s t).2.1.lk = s.lk)
    ∨ (c.holdsFlag = false ∧ (c.step s t).1.holdsFlag = true ∧ s.lk = 0
        ∧ (c.step s t).2.1.lk = 1)
    ∨ (c.holdsFlag = true ∧ (c.step s t).1.holdsFlag = false
        ∧ (c.step s t).2.1.lk = 0) := by
  cases c with
  | entry nodes =>
    left
    by_cases h0 : nodes.length = 0
    · simp [Call.step, h0, Call.holdsFlag]
    · by_cases h1 : nodes.length = 1
      · cases hx : nodes[0]? <;> simp [Call.step, h1, hx, Call.holdsFlag]
      · cases hpre : s.prePick t nodes with
        | none => simp [Call.step, h0, h1, hpre, Call.holdsFlag]
        | some v =>
          obtain ⟨⟨nodeA, nodeB⟩, s1, t1⟩ := v
          have hlk := prePick_lk hpre
          by_cases hw : nodeB.Weight > nodeA.Weight <;>
            simp [Call.step, h0, h1, hpre, hw, Call.holdsFlag, hlk]
  | test pc upc =>
    by_cases hel : upc.PickElapsed > forcePick
    · by_cases hlk : s.lk = 0
      · right
        left
        simp [Call.step, hel, Balancer.CompareAndSwapLk, hlk, Call.holdsFlag]
      · left
        simp [Call.step, hel, Balancer.CompareAndSwapLk, hlk, Call.holdsFlag]
    · left
      simp [Call.step, hel, Call.holdsFlag]
  | holding pc upc =>
    right
    right
    simp [Call.step, Balancer.StoreLk, Call.holdsFlag]
  | picking pc forced =>
    left
    simp [Call.step, WeightedNode.Pick, Call.holdsFlag]
  | returned res forced =>
    left
    simp [Call.step, Call.holdsFlag]
  | crashed =>
    left
    simp [Call.step, Call.holdsFlag]

/-- The flag counts the calls that hold it, and that is at most one call: this is kept by
every step of every call. -/
theorem System.step_keeps_flag_count (sys : System W) (i : Nat)
    (hinv : sys.s.lk = (sys.calls.countP Call.holdsFlag : Nat)
      ∧ sys.calls.countP Call.holdsFlag ≤ 1) :
    (sys.step i).s.lk = ((sys.step i).calls.countP Call.holdsFlag : Nat)
      ∧ (sys.step i).calls.countP Call.holdsFlag ≤ 1 := by
  obtain ⟨hlk, hle⟩ := hinv
  unfold System.step
  cases hc : sys.calls[i]? with
  | none => exact ⟨hlk, hle⟩
  | some c =>
    have hset := countP_set_add Call.holdsFlag sys.calls i c (c.step sys.s sys.trace).1 hc
    have hmem : c ∈ sys.calls := List.getElem?_mem hc
    have hpos : c.holdsFlag = true → 0 < sys.calls.countP Call.holdsFlag := fun hh =>
      List.countP_pos_iff.mpr ⟨c, hmem, hh⟩
    show (c.step sys.s sys.trace).2.1.lk
        = ((sys.calls.set i (c.step sys.s sys.trace).1).countP Call.holdsFlag : Nat)
      ∧ (sys.calls.set i (c.step sys.s sys.trace).1).countP Call.holdsFlag ≤ 1
    rcases Call.step_acquires_or_releases sys.s sys.trace c with ⟨h1, h2⟩ | ⟨h1, h2, h3, h4⟩ | ⟨h1, h2, h3⟩
    · rw [h1] at hset
      rw [h2]
      constructor <;> omega
    · rw [h1, h2] at hset
      simp only [if_true, Bool.false_eq_true, if_false] at hset
      rw [h4]
      constructor <;> omega
    · have := hpos h1
      rw [h1, h2] at hset
      simp only [if_true, Bool.false_eq_true, if_false] at hset
      rw [h3]
      constructor <;> omega

/-- The flag invariant along a whole schedule. -/
theorem System.run_keeps_flag_count (sched : List Nat) :
    ∀ sys : System W,
      (sys.s.lk = (sys.calls.countP Call.holdsFlag : Nat)
        ∧ sys.calls.countP Call.holdsFlag ≤ 1) →
      ((sys.run sched).s.lk = ((sys.run sched).calls.countP Call.holdsFlag : Nat)
        ∧ (sys.run sched).calls.countP Call.holdsFlag ≤ 1) := by
  induction sched with
  | nil =>
    intro sys hinv
    exact hinv
  | cons i rest ih =>
    intro sys hinv
    exact ih (sys.step i) (System.step_keeps_flag_count sys i hinv)

omit [LinearOrder W] in
/-- No call holds the flag when it has just been entered. -/
theorem countP_entry (inputs : List (List (WeightedNode W))) :
    (inputs.map Call.entry).countP Call.holdsFlag = 0 := by
  induction inputs with
  | nil => rfl
  | cons x xs ih => simp [List.countP_cons, Call.holdsFlag]

/-- A call that runs alone does what `Balancer.Pick` does: scheduled four times it has
returned the same triple and left the same balancer and trace. -/
theorem System.run_solo (s : Balancer) (t : Trace W) (nodes : List (WeightedNode W)) :
    ∃ res s1 t1 forced, s.Pick t nodes = some (res, s1, t1)
      ∧ System.run { s := s, trace := t, calls := [Call.entry nodes] } [0, 0, 0, 0]
          = { s := s1, trace := t1, calls := [Call.returned res forced] } := by
  match nodes with
  | [] =>
    exact ⟨_, _, _, false, pick_nil s t, by simp [System.run, System.step, Call.step]⟩
  | [x] =>
    exact ⟨_, _, _, false, pick_single s t x,
      by simp [System.run, System.step, Call.step, WeightedNode.Pick]⟩
  | x :: y :: rest =>
    have h := draws_exist s (n := (x :: y :: rest).length) (by simp)
    obtain ⟨nodeA, nodeB, hA, hB⟩ := drawn_nodes_exist h
    obtain ⟨pc, upc, hp, _⟩ := provisional_cases nodeA nodeB
    have hpre := prePick_of_draws t h hA hB
    have h0 : ¬ (x :: y :: rest).length = 0 := by simp
    have h1 : ¬ (x :: y :: rest).length = 1 := by simp
    by_cases hel : upc.PickElapsed > forcePick
    · by_cases hlk : s.lk = 0
      · refine ⟨_, _, _, true, Pick_override t h hA hB hp hel hlk, ?_⟩
        simp [System.run, System.step, Call.step, h0, h1, hpre, hp, hel,
          Balancer.CompareAndSwapLk, Balancer.StoreLk, Balancer.afterDraws, hlk,
          WeightedNode.Pick, drawEvents]
      · refine ⟨_, _, _, false, Pick_held t h hA hB hp hel hlk, ?_⟩
        simp [System.run, System.step, Call.step, h0, h1, hpre, hp, hel,
          Balancer.CompareAndSwapLk, Balancer.afterDraws, hlk,
          WeightedNode.Pick, drawEvents]
    · refine ⟨_, _, _, false, Pick_plain t h hA hB hp (not_lt.mp hel), ?_⟩
      simp [System.run, System.step, Call.step, h0, h1, hpre, hp, hel,
        Balancer.afterDraws, WeightedNode.Pick, drawEvents]

/-- The index map of `prePick` is a bijection from the draws onto the ordered pairs of
distinct indices. -/
theorem prePickIdx_bijOn (n : Nat) :
    Set.BijOn prePickIdx {p | p.1 < n ∧ p.2 < n - 1} {q | q.1 < n ∧ q.2 < n ∧ q.1 ≠ q.2} := by
  refine ⟨?_, ?_, ?_⟩
  · rintro ⟨a, b⟩ ⟨ha, hb⟩
    exact ⟨ha, adjust_lt hb, (adjust_ne a b).symm⟩
  · rintro ⟨a, b⟩ _ ⟨c, d⟩ _ heq
    simp only [prePickIdx, Prod.mk.injEq] at heq
    obtain ⟨rfl, h2⟩ := heq
    have hd : d = b := by
      unfold adjust at h2
      split at h2 <;> split at h2 <;> omega
    rw [hd]
  · rintro ⟨i, j⟩ ⟨hi, hj, hij⟩
    simp only at hi hj hij
    refine ⟨(i, if i < j then j - 1 else j), ⟨hi, ?_⟩, (prePickIdx_eq_iff hij).mpr rfl⟩
    show (if i < j then j - 1 else j) < n - 1
    split <;> omega

/-- Exactly two draw combinations lead to a given unordered pair of distinct indices. -/
theorem prePickIdx_pair_count {n i j : Nat} (hi : i < n) (hj : j < n) (hij : i ≠ j) :
    ((Finset.range n ×ˢ Finset.range (n - 1)).filter
      (fun p => prePickIdx p = (i, j) ∨ prePickIdx p = (j, i))).card = 2 := by
  have hset : (Finset.range n ×ˢ Finset.range (n - 1)).filter
        (fun p => prePickIdx p = (i, j) ∨ prePickIdx p = (j, i))
      = {(i, if i < j then j - 1 else j), (j, if j < i then i - 1 else i)} := by
    ext p
    simp only [Finset.mem_filter, Finset.mem_product, Finset.mem_range, Finset.mem_insert,
      Finset.mem_singleton, prePickIdx_eq_iff hij, prePickIdx_eq_iff (Ne.symm hij)]
    constructor
    · exact fun h => h.2
    · rintro (rfl | rfl)
      · refine ⟨⟨hi, ?_⟩, Or.inl rfl⟩
        show (if i < j then j - 1 else j) < n - 1
        split <;> omega
      · refine ⟨⟨hj, ?_⟩, Or.inr rfl⟩
        show (if j < i then i - 1 else i) < n - 1
        split <;> omega
  rw [hset, Finset.card_pair]
  intro heq
  exact hij (congrArg Prod.fst heq)

/-- The sample balancer `balancerOf a b` answers the two draws with `a` and `b`. -/
theorem draws_balancerOf {n a b : Nat} (hn : 2 ≤ n) (ha : a < n) (hb : b < n - 1) :
    Draws (balancerOf a b) n a b :=
  { two_le := hn
    a_lt := ha
    b_lt := hb
    first := by simp [balancerOf, randOf, Rand.peek, Nat.mod_eq_of_lt ha]
    second := by simp [balancerOf, randOf, Rand.peek, Nat.mod_eq_of_lt hb] }

omit [LinearOrder W] in
/-- The pair `prePick` returns for the draws `(a, b)`: the nodes at `a` and
`adjust a b`. -/
theorem drawnPair_of_draws {nodes : List (WeightedNode W)} {a b : Nat}
    {x y : WeightedNode W} (hn : 2 ≤ nodes.length) (ha : a < nodes.length)
    (hb : b < nodes.length - 1)
    (hx : nodes[a]? = some x) (hy : nodes[adjust a b]? = some y) :
    drawnPair nodes (a, b) = some (x, y) := by
  unfold drawnPair
  rw [prePick_of_draws [] (draws_balancerOf hn ha hb) hx hy]
  rfl

omit [LinearOrder W] in
/-- On a sequence without repeated nodes the returned pair tells the index pair. -/
theorem drawnPair_eq_iff {nodes : List (WeightedNode W)} {p : Nat × Nat} {i j : Nat}
    {x y : WeightedNode W} (hn : 2 ≤ nodes.length) (hnd : nodes.Nodup)
    (hp1 : p.1 < nodes.length) (hp2 : p.2 < nodes.length - 1)
    (hx : nodes[i]? = some x) (hy : nodes[j]? = some y) :
    drawnPair nodes p = some (x, y) ↔ prePickIdx p = (i, j) := by
  obtain ⟨a, b⟩ := p
  simp only at hp1 hp2
  have hlt : adjust a b < nodes.length := adjust_lt hp2
  have hxa : nodes[a]? = some (nodes.get ⟨a, hp1⟩) := List.getElem?_eq_getElem hp1
  have hyb : nodes[adjust a b]? = some (nodes.get ⟨adjust a b, hlt⟩) :=
    List.getElem?_eq_getElem hlt
  rw [drawnPair_of_draws hn hp1 hp2 hxa hyb]
  simp only [prePickIdx, Option.some.injEq, Prod.mk.injEq]
  constructor
  · rintro ⟨h1, h2⟩
    constructor
    · exact List.getElem?_inj hp1 hnd (by rw [hxa, hx, h1])
    · exact List.getElem?_inj hlt hnd (by rw [hyb, hy, h2])
  · rintro ⟨rfl, rfl⟩
    rw [hxa] at hx
    rw [hyb] at hy
    exact ⟨Option.some.inj hx, Option.some.inj hy⟩

omit [LinearOrder W] in
/-- On a sequence of two or more nodes without repeated nodes, `prePick` maps the draws
bijectively onto the ordered pairs of distinct nodes. -/
theorem drawnPair_bijOn {nodes : List (WeightedNode W)} (hn : 2 ≤ nodes.length)
    (hnd : nodes.Nodup) :
    Set.BijOn (drawnPair nodes) {p | p.1 < nodes.length ∧ p.2 < nodes.length - 1}
      {q | ∃ x ∈ nodes, ∃ y ∈ nodes, x ≠ y ∧ q = some (x, y)} := by
  refine ⟨?_, ?_, ?_⟩
  · rintro ⟨a, b⟩ ⟨ha, hb⟩
    simp only at ha hb
    have hlt : adjust a b < nodes.length := adjust_lt hb
    have hxa : nodes[a]? = some (nodes.get ⟨a, ha⟩) := List.getElem?_eq_getElem ha
    have hyb : nodes[adjust a b]? = some (nodes.get ⟨adjust a b, hlt⟩) :=
      List.getElem?_eq_getElem hlt
    refine ⟨_, List.getElem?_mem hxa, _, List.getElem?_mem hyb, ?_,
      drawnPair_of_draws hn ha hb hxa hyb⟩
    intro heq
    have : a = adjust a b := List.getElem?_inj ha hnd (by rw [hxa, hyb, heq])
    exact adjust_ne a b this.symm
  · rintro ⟨a, b⟩ ⟨ha, hb⟩ ⟨c, d⟩ ⟨hc, hd⟩ heq
    simp only at ha hb hc hd
    have hlt : adjust c d < nodes.length := adjust_lt hd
    have hxc : nodes[c]? = some (nodes.get ⟨c, hc⟩) := List.getElem?_eq_getElem hc
    have hyd : nodes[adjust c d]? = some (nodes.get ⟨adjust c d, hlt⟩) :=
      List.getElem?_eq_getElem hlt
    have h1 : prePickIdx (a, b) = (c, adjust c d) :=
      (drawnPair_eq_iff hn hnd ha hb hxc hyd).mp
        (heq.trans (drawnPair_of_draws hn hc hd hxc hyd))
    exact (prePickIdx_bijOn nodes.length).injOn ⟨ha, hb⟩ ⟨hc, hd⟩ h1
  · rintro q ⟨x, hx, y, hy, hxy, rfl⟩
    obtain ⟨i, hi⟩ := List.mem_iff_getElem?.mp hx
    obtain ⟨j, hj⟩ := List.mem_iff_getElem?.mp hy
    have hil : i < nodes.length := by
      by_contra hge
      rw [List.getElem?_eq_none (Nat.le_of_not_lt hge)] at hi
      cases hi
    have hjl : j < nodes.length := by
      by_contra hge
      rw [List.getElem?_eq_none (Nat.le_of_not_lt hge)] at hj
      cases hj
    have hij : i ≠ j := by
      rintro rfl
      rw [hi] at hj
      exact hxy (Option.some.inj hj)
    obtain ⟨p, hp, hpeq⟩ := (prePickIdx_bijOn nodes.length).surjOn
      (show (i, j) ∈ {q : Nat × Nat | q.1 < nodes.length ∧ q.2 < nodes.length ∧ q.1 ≠ q.2}
        from ⟨hil, hjl, hij⟩)
    exact ⟨p, hp, (drawnPair_eq_iff hn hnd hp.1 hp.2 hi hj).mpr hpeq⟩

/-- On a sequence without repeated nodes, exactly two draw combinations make `prePick`
return a given unordered pair of distinct nodes. -/
theorem drawnPair_pair_count {nodes : List (WeightedNode W)} (hn : 2 ≤ nodes.length)
    (hnd : nodes.Nodup) {x y : WeightedNode W} (hx : x ∈ nodes) (hy : y ∈ nodes)
    (hxy : x ≠ y) :
    ((Finset.range nodes.length ×ˢ Finset.range (nodes.length - 1)).filter
      (fun p => drawnPair nodes p = some (x, y) ∨ drawnPair nodes p = some (y, x))).card
      = 2 := by
  obtain ⟨i, hi⟩ := List.mem_iff_getElem?.mp hx
  obtain ⟨j, hj⟩ := List.mem_iff_getElem?.mp hy
  have hil : i < nodes.length := by
    by_contra hge
    rw [List.getElem?_eq_none (Nat.le_of_not_lt hge)] at hi
    cases hi
  have hjl : j < nodes.length := by
    by_contra hge
    rw [List.getElem?_eq_none (Nat.le_of_not_lt hge)] at hj
    cases hj
  have hij : i ≠ j := by
    rintro rfl
    rw [hi] at hj
    exact hxy (Option.some.inj hj)
  rw [← prePickIdx_pair_count hil hjl hij]
  congr 1
  apply Finset.filter_congr
  intro p hp
  simp only [Finset.mem_product, Finset.mem_range] at hp
  rw [drawnPair_eq_iff hn hnd hp.1 hp.2 hi hj, drawnPair_eq_iff hn hnd hp.1 hp.2 hj hi]

end Lemmas

/-! ## Claims -/

section Claims

variable {W : Type} [LinearOrder W]

/-- C1. On a sequence of two or more nodes, for all draws `a`, `b`: when one of the two
drawn nodes (`hi`) has strictly greater weight than the other (`lo`) and `lo` has
`PickElapsed` at most `forcePick`, `Pick` returns `hi` with a callback and no error,
whichever of the two was drawn first. -/
theorem pick_returns_heavier (s : Balancer) (t : Trace W) (nodes : List (WeightedNode W))
    (a b : Nat) (nodeA nodeB hi lo : WeightedNode W)
    (h : Draws s nodes.length a b)
    (hA : nodes[a]? = some nodeA) (hB : nodes[adjust a b]? = some nodeB)
    (hd : (hi = nodeA ∧ lo = nodeB) ∨ (hi = nodeB ∧ lo = nodeA))
    (hlt : lo.Weight < hi.Weight) (hel : lo.PickElapsed ≤ forcePick) :
    ∃ done s1 t1,
      s.Pick t nodes = some ({ node := some hi, done := some done, err := none }, s1, t1) := by
  rcases hd with ⟨rfl, rfl⟩ | ⟨rfl, rfl⟩
  · have hp : (if lo.Weight > hi.Weight then (lo, hi) else (hi, lo)) = (hi, lo) := by
      simp [not_lt.mpr hlt.le]
    exact ⟨_, _, _, Pick_plain t h hA hB hp hel⟩
  · have hp : (if hi.Weight > lo.Weight then (hi, lo) else (lo, hi)) = (hi, lo) := by
      simp [hlt]
    exact ⟨_, _, _, Pick_plain t h hA hB hp hel⟩

/-- Witness for C1: weights 5 and 1, the weight-1 node idle for exactly `forcePick`, in
both draw orders. -/
theorem pick_returns_heavier_witness :
    (∃ done s1 t1, (balancerOf 0 0).Pick [] [nodeW5, nodeW1]
        = some ({ node := some nodeW5, done := some done, err := none }, s1, t1))
    ∧ (∃ done s1 t1, (balancerOf 1 0).Pick [] [nodeW5, nodeW1]
        = some ({ node := some nodeW5, done := some done, err := none }, s1, t1)) :=
  ⟨pick_returns_heavier (balancerOf 0 0) [] [nodeW5, nodeW1] 0 0 nodeW5 nodeW1 nodeW5 nodeW1
      ⟨by decide, by decide, by decide, by decide, by decide⟩ rfl rfl
      (Or.inl ⟨rfl, rfl⟩) (by decide) (by decide),
   pick_returns_heavier (balancerOf 1 0) [] [nodeW5, nodeW1] 1 0 nodeW1 nodeW5 nodeW5 nodeW1
      ⟨by decide, by decide, by decide, by decide, by decide⟩ rfl rfl
      (Or.inr ⟨rfl, rfl⟩) (by decide) (by decide)⟩

/-- C2. On a sequence of two or more nodes, for all draws: when the provisionally
unpicked node `upc` (the drawn node of strictly lower weight, or the second-drawn node
on a tie) has `PickElapsed` strictly greater than `forcePick` and the flag `lk` is 0 on
entry, `Pick` returns `upc`; nothing is assumed of the elapsed time of `pc`. -/
theorem pick_overrides_idle (s : Balancer) (t : Trace W) (nodes : List (WeightedNode W))
    (a b : Nat) (nodeA nodeB pc upc : WeightedNode W)
    (h : Draws s nodes.length a b)
    (hA : nodes[a]? = some nodeA) (hB : nodes[adjust a b]? = some nodeB)
    (hd : (upc.Weight < pc.Weight ∧ ((pc = nodeA ∧ upc = nodeB) ∨ (pc = nodeB ∧ upc = nodeA)))
      ∨ (nodeA.Weight = nodeB.Weight ∧ pc = nodeA ∧ upc = nodeB))
    (hel : forcePick < upc.PickElapsed) (hlk : s.lk = 0) :
    ∃ done s1 t1,
      s.Pick t nodes = some ({ node := some upc, done := some done, err := none }, s1, t1) :=
  ⟨_, _, _, Pick_override t h hA hB (provisional_eq hd) hel hlk⟩

/-- Witness for C2: the idle weight-1 node wins over the weight-5 node, drawn second or
first. -/
theorem pick_overrides_idle_witness :
    (∃ done s1 t1, (balancerOf 0 0).Pick [] [nodeW5, nodeIdle]
        = some ({ node := some nodeIdle, done := some done, err := none }, s1, t1))
    ∧ (∃ done s1 t1, (balancerOf 1 0).Pick [] [nodeW5, nodeIdle]
        = some ({ node := some nodeIdle, done := some done, err := none }, s1, t1)) :=
  ⟨pick_overrides_idle (balancerOf 0 0) [] [nodeW5, nodeIdle] 0 0 nodeW5 nodeIdle nodeW5 nodeIdle
      ⟨by decide, by decide, by decide, by decide, by decide⟩ rfl rfl
      (Or.inl ⟨by decide, Or.inl ⟨rfl, rfl⟩⟩) (by decide) rfl,
   pick_overrides_idle (balancerOf 1 0) [] [nodeW5, nodeIdle] 1 0 nodeIdle nodeW5 nodeW5 nodeIdle
      ⟨by decide, by decide, by decide, by decide, by decide⟩ rfl rfl
      (Or.inl ⟨by decide, Or.inr ⟨rfl, rfl⟩⟩) (by decide) rfl⟩

/-- C3. On a sequence of two or more nodes, for all draws: when the flag `lk` is 1 on
entry, `Pick` returns the provisional pick `pc` (the drawn node of strictly greater
weight, or the first-drawn node on a tie), whatever the elapsed time of the unpicked
node `upc`.  The call completes, leaves the flag at 1, and its trace shows the two
draws, at most one compare-and-swap (a failed one, made only when `upc` is idle for
longer than `forcePick`), no store, and the `Pick()` call on `pc`. -/
theorem pick_keeps_provisional_when_held (s : Balancer) (t : Trace W)
    (nodes : List (WeightedNode W)) (a b : Nat) (nodeA nodeB pc upc : WeightedNode W)
    (h : Draws s nodes.length a b)
    (hA : nodes[a]? = some nodeA) (hB : nodes[adjust a b]? = some nodeB)
    (hd : (upc.Weight < pc.Weight ∧ ((pc = nodeA ∧ upc = nodeB) ∨ (pc = nodeB ∧ upc = nodeA)))
      ∨ (nodeA.Weight = nodeB.Weight ∧ pc = nodeA ∧ upc = nodeB))
    (hlk : s.lk = 1) :
    ∃ done,
      s.Pick t nodes
        = some ({ node := some pc, done := some done, err := none }, s.afterDraws,
            t ++ drawEvents W nodes.length a b
              ++ (if forcePick < upc.PickElapsed then [Event.cas false] else [])
              ++ [Event.pick pc])
      ∧ s.afterDraws.lk = 1 := by
  have hlk0 : s.lk ≠ 0 := by omega
  by_cases hel : forcePick < upc.PickElapsed
  · rw [if_pos hel]
    exact ⟨_, Pick_held t h hA hB (provisional_eq hd) hel hlk0, hlk⟩
  · rw [if_neg hel, List.append_nil]
    exact ⟨_, Pick_plain t h hA hB (provisional_eq hd) (not_lt.mp hel), hlk⟩

/-- Witness for C3: with the flag held the weight-5 node is returned although the
weight-1 node is idle for four seconds. -/
theorem pick_keeps_provisional_when_held_witness :
    ∃ done,
      (balancerHeld 0 0).Pick [] [nodeW5, nodeIdle]
        = some ({ node := some nodeW5, done := some done, err := none },
            (balancerHeld 0 0).afterDraws,
            [] ++ drawEvents Nat 2 0 0
              ++ (if forcePick < nodeIdle.PickElapsed then [Event.cas false] else [])
              ++ [Event.pick nodeW5])
      ∧ (balancerHeld 0 0).afterDraws.lk = 1 :=
  pick_keeps_provisional_when_held (balancerHeld 0 0) [] [nodeW5, nodeIdle] 0 0
    nodeW5 nodeIdle nodeW5 nodeIdle
    ⟨by decide, by decide, by decide, by decide, by decide⟩ rfl rfl
    (Or.inl ⟨by decide, Or.inl ⟨rfl, rfl⟩⟩) rfl

/-- C4. On the empty sequence `Pick` returns a nil node, a nil callback and the error
`ErrNoAvailable`; balancer and trace are unchanged, so no `Pick()` was called on any
node and no random number was drawn. -/
theorem pick_empty (s : Balancer) (t : Trace W) :
    s.Pick t ([] : List (WeightedNode W))
      = some ({ node := none, done := none, err := some ErrNoAvailable }, s, t) := by
  simp [Balancer.Pick]

/-- C5. `Pick` always returns; its error is non-nil exactly when the input sequence is
empty, and an error it returns is `ErrNoAvailable`. -/
theorem pick_error_iff_empty (s : Balancer) (t : Trace W) (nodes : List (WeightedNode W)) :
    ∃ res s1 t1, s.Pick t nodes = some (res, s1, t1)
      ∧ (res.err ≠ none ↔ nodes = [])
      ∧ ∀ e, res.err = some e → e = ErrNoAvailable := by
  match nodes with
  | [] => exact ⟨_, _, _, pick_nil s t, by simp, by simp⟩
  | [x] => exact ⟨_, _, _, pick_single s t x, by simp, by simp⟩
  | x :: y :: rest =>
    have h := draws_exist s (n := (x :: y :: rest).length) (by simp)
    obtain ⟨nodeA, nodeB, hA, hB⟩ := drawn_nodes_exist h
    obtain ⟨z, done, s1, t1, hpick, _⟩ := Pick_of_draws t h hA hB
    exact ⟨_, _, _, hpick, by simp, by simp⟩

/-- C6. On a one-element sequence `[x]`, `Pick` returns `x`, the callback of `x.Pick()`
and no error.  The balancer (random source and flag) is unchanged and the only new
event of the trace is that one `Pick()` call: no draw, no access to the flag. -/
theorem pick_singleton (s : Balancer) (t : Trace W) (x : WeightedNode W) :
    s.Pick t [x]
      = some ({ node := some x, done := some (x.Pick t).1, err := none }, s, (x.Pick t).2)
    ∧ (x.Pick t).2 = t ++ [Event.pick x] := by
  exact ⟨pick_single s t x, rfl⟩

/-- C7. On a sequence of two or more nodes, for all draws and every value of the flag,
`Pick` returns a node that is a member of the input sequence: the node at position `a`
or the node at the adjusted position `adjust a b`. -/
theorem pick_member (s : Balancer) (t : Trace W) (nodes : List (WeightedNode W))
    (a b : Nat) (h : Draws s nodes.length a b) :
    ∃ x done s1 t1,
      s.Pick t nodes = some ({ node := some x, done := some done, err := none }, s1, t1)
        ∧ x ∈ nodes ∧ (nodes[a]? = some x ∨ nodes[adjust a b]? = some x) := by
  obtain ⟨nodeA, nodeB, hA, hB⟩ := drawn_nodes_exist h
  obtain ⟨x, done, s1, t1, hpick, hx⟩ := Pick_of_draws t h hA hB
  refine ⟨x, done, s1, t1, hpick, ?_, ?_⟩
  · rcases hx with rfl | rfl
    · exact List.getElem?_mem hA
    · exact List.getElem?_mem hB
  · rcases hx with rfl | rfl
    · exact Or.inl hA
    · exact Or.inr hB

/-- Witness for C7: three nodes, draws 2 and 1. -/
theorem pick_member_witness :
    ∃ x done s1 t1,
      (balancerOf 2 1).Pick [] [nodeW5, nodeW1, nodeIdle]
          = some ({ node := some x, done := some done, err := none }, s1, t1)
        ∧ x ∈ [nodeW5, nodeW1, nodeIdle]
        ∧ ([nodeW5, nodeW1, nodeIdle][2]? = some x
            ∨ [nodeW5, nodeW1, nodeIdle][adjust 2 1]? = some x) :=
  pick_member (balancerOf 2 1) [] [nodeW5, nodeW1, nodeIdle] 2 1
    ⟨by decide, by decide, by decide, by decide, by decide⟩

omit [LinearOrder W] in
/-- C8. On a sequence of `n >= 2` nodes, for all draws `a` in `[0, n)` and `b` in
`[0, n-1)`, the two indices of `prePick`, `a` and `adjust a b`, both lie in `[0, n)` and
are distinct, and `prePick` returns the nodes at these two positions. -/
theorem prePick_distinct (s : Balancer) (t : Trace W) (nodes : List (WeightedNode W))
    (a b : Nat) (h : Draws s nodes.length a b) :
    a < nodes.length ∧ adjust a b < nodes.length ∧ a ≠ adjust a b
      ∧ ∃ nodeA nodeB, nodes[a]? = some nodeA ∧ nodes[adjust a b]? = some nodeB
          ∧ s.prePick t nodes
              = some ((nodeA, nodeB), s.afterDraws, t ++ drawEvents W nodes.length a b) := by
  obtain ⟨nodeA, nodeB, hA, hB⟩ := drawn_nodes_exist h
  exact ⟨h.a_lt, adjust_lt h.b_lt, (adjust_ne a b).symm, nodeA, nodeB, hA, hB,
    prePick_of_draws t h hA hB⟩

/-- Witness for C8: three nodes, draws 1 and 1, hence the positions 1 and 2. -/
theorem prePick_distinct_witness :
    1 < [nodeW5, nodeW1, nodeIdle].length ∧ adjust 1 1 < [nodeW5, nodeW1, nodeIdle].length
      ∧ 1 ≠ adjust 1 1
      ∧ ∃ nodeA nodeB, [nodeW5, nodeW1, nodeIdle][1]? = some nodeA
          ∧ [nodeW5, nodeW1, nodeIdle][adjust 1 1]? = some nodeB
          ∧ (balancerOf 1 1).prePick [] [nodeW5, nodeW1, nodeIdle]
              = some ((nodeA, nodeB), (balancerOf 1 1).afterDraws,
                  [] ++ drawEvents Nat [nodeW5, nodeW1, nodeIdle].length 1 1) :=
  prePick_distinct (balancerOf 1 1) [] [nodeW5, nodeW1, nodeIdle] 1 1
    ⟨by decide, by decide, by decide, by decide, by decide⟩

/-- C9. On every sequence of `n >= 2` nodes the pair `prePick` returns is, for every
balancer state whose draws are `(a, b)`, the pair `drawnPair nodes (a, b)` of the nodes at
the positions `prePickIdx (a, b) = (a, adjust a b)`.  This index map is a bijection from
`[0, n) × [0, n-1)` onto the ordered pairs of distinct indices of `[0, n)`; there are
`n * (n-1)` draw combinations and every unordered pair `{i, j}` of distinct indices is
produced by exactly two of them.  On a sequence without repeated nodes the same holds
of the returned nodes themselves: `prePick` maps the draws bijectively onto the ordered
pairs of distinct nodes, and every unordered pair of distinct nodes is returned for
exactly two draw combinations. -/
theorem prePick_bijection (nodes : List (WeightedNode W)) (hn : 2 ≤ nodes.length) :
    (∀ (s : Balancer) (t : Trace W) (a b : Nat), Draws s nodes.length a b →
        (s.prePick t nodes).map (fun res => res.1) = drawnPair nodes (a, b)
          ∧ ∃ x y, nodes[(prePickIdx (a, b)).1]? = some x
              ∧ nodes[(prePickIdx (a, b)).2]? = some y
              ∧ drawnPair nodes (a, b) = some (x, y))
      ∧ Set.BijOn prePickIdx {p | p.1 < nodes.length ∧ p.2 < nodes.length - 1}
          {q | q.1 < nodes.length ∧ q.2 < nodes.length ∧ q.1 ≠ q.2}
      ∧ (Finset.range nodes.length ×ˢ Finset.range (nodes.length - 1)).card
          = nodes.length * (nodes.length - 1)
      ∧ (∀ i j, i < nodes.length → j < nodes.length → i ≠ j →
          ((Finset.range nodes.length ×ˢ Finset.range (nodes.length - 1)).filter
            (fun p => prePickIdx p = (i, j) ∨ prePickIdx p = (j, i))).card = 2)
      ∧ (nodes.Nodup →
          Set.BijOn (drawnPair nodes) {p | p.1 < nodes.length ∧ p.2 < nodes.length - 1}
              {q | ∃ x ∈ nodes, ∃ y ∈ nodes, x ≠ y ∧ q = some (x, y)}
            ∧ ∀ x ∈ nodes, ∀ y ∈ nodes, x ≠ y →
                ((Finset.range nodes.length ×ˢ Finset.range (nodes.length - 1)).filter
                  (fun p => drawnPair nodes p = some (x, y)
                    ∨ drawnPair nodes p = some (y, x))).card = 2) := by
  refine ⟨?_, prePickIdx_bijOn nodes.length, by simp, ?_, ?_⟩
  · intro s t a b h
    obtain ⟨x, y, hx, hy⟩ := drawn_nodes_exist h
    have hd := drawnPair_of_draws hn h.a_lt h.b_lt hx hy
    refine ⟨?_, x, y, hx, hy, hd⟩
    rw [prePick_of_draws t h hx hy, hd]
    rfl
  · intro i j hi hj hij
    exact prePickIdx_pair_count hi hj hij
  · intro hnd
    exact ⟨drawnPair_bijOn hn hnd, fun x hx y hy hxy => drawnPair_pair_count hn hnd hx hy hxy⟩

/-- Witness for C9: five distinct nodes, as in the spec's sampling test (20 draw
combinations, 10 unordered pairs, two combinations each). -/
theorem prePick_bijection_witness :
    fiveNodes.Nodup ∧ 2 ≤ fiveNodes.length
      ∧ (∀ (s : Balancer) (t : Trace Nat) (a b : Nat), Draws s fiveNodes.length a b →
        (s.prePick t fiveNodes).map (fun res => res.1) = drawnPair fiveNodes (a, b)
          ∧ ∃ x y, fiveNodes[(prePickIdx (a, b)).1]? = some x
              ∧ fiveNodes[(prePickIdx (a, b)).2]? = some y
              ∧ drawnPair fiveNodes (a, b) = some (x, y))
      ∧ Set.BijOn prePickIdx {p | p.1 < fiveNodes.length ∧ p.2 < fiveNodes.length - 1}
          {q | q.1 < fiveNodes.length ∧ q.2 < fiveNodes.length ∧ q.1 ≠ q.2}
      ∧ (Finset.range fiveNodes.length ×ˢ Finset.range (fiveNodes.length - 1)).card
          = fiveNodes.length * (fiveNodes.length - 1)
      ∧ (∀ i j, i < fiveNodes.length → j < fiveNodes.length → i ≠ j →
          ((Finset.range fiveNodes.length ×ˢ Finset.range (fiveNodes.length - 1)).filter
            (fun p => prePickIdx p = (i, j) ∨ prePickIdx p = (j, i))).card = 2)
      ∧ (fiveNodes.Nodup →
          Set.BijOn (drawnPair fiveNodes)
              {p | p.1 < fiveNodes.length ∧ p.2 < fiveNodes.length - 1}
              {q | ∃ x ∈ fiveNodes, ∃ y ∈ fiveNodes, x ≠ y ∧ q = some (x, y)}
            ∧ ∀ x ∈ fiveNodes, ∀ y ∈ fiveNodes, x ≠ y →
                ((Finset.range fiveNodes.length ×ˢ Finset.range (fiveNodes.length - 1)).filter
                  (fun p => drawnPair fiveNodes p = some (x, y)
                    ∨ drawnPair fiveNodes p = some (y, x))).card = 2) :=
  ⟨by decide, by decide, prePick_bijection fiveNodes (by decide)⟩

/-- C10. On a sequence of two or more nodes, for all draws: when the two drawn nodes
have equal weights and no override happens (the second-drawn node has `PickElapsed` at
most `forcePick`, or the flag is held), `Pick` returns `nodeA`, the node at the first
drawn position `a`. -/
theorem pick_tie_first_drawn (s : Balancer) (t : Trace W) (nodes : List (WeightedNode W))
    (a b : Nat) (nodeA nodeB : WeightedNode W)
    (h : Draws s nodes.length a b)
    (hA : nodes[a]? = some nodeA) (hB : nodes[adjust a b]? = some nodeB)
    (hw : nodeA.Weight = nodeB.Weight)
    (hno : nodeB.PickElapsed ≤ forcePick ∨ s.lk = 1) :
    ∃ done s1 t1,
      s.Pick t nodes = some ({ node := some nodeA, done := some done, err := none }, s1, t1) := by
  have hp : (if nodeB.Weight > nodeA.Weight then (nodeB, nodeA) else (nodeA, nodeB))
      = (nodeA, nodeB) := by simp [hw]
  by_cases hel : nodeB.PickElapsed > forcePick
  · rcases hno with hle | hlk
    · exact absurd hel (not_lt.mpr hle)
    · have hlk0 : s.lk ≠ 0 := by omega
      exact ⟨_, _, _, Pick_held t h hA hB hp hel hlk0⟩
  · exact ⟨_, _, _, Pick_plain t h hA hB hp (not_lt.mp hel)⟩

/-- Witness for C10: two nodes of weight 5; the first-drawn one is returned in either
draw order, here without the second being idle. -/
theorem pick_tie_first_drawn_witness :
    (∃ done s1 t1, (balancerOf 0 0).Pick [] [nodeW5, nodeW5b]
        = some ({ node := some nodeW5, done := some done, err := none }, s1, t1))
    ∧ (∃ done s1 t1, (balancerOf 1 0).Pick [] [nodeW5, nodeW5b]
        = some ({ node := some nodeW5b, done := some done, err := none }, s1, t1)) :=
  ⟨pick_tie_first_drawn (balancerOf 0 0) [] [nodeW5, nodeW5b] 0 0 nodeW5 nodeW5b
      ⟨by decide, by decide, by decide, by decide, by decide⟩ rfl rfl rfl
      (Or.inl (by decide)),
   pick_tie_first_drawn (balancerOf 1 0) [] [nodeW5, nodeW5b] 1 0 nodeW5b nodeW5
      ⟨by decide, by decide, by decide, by decide, by decide⟩ rfl rfl rfl
      (Or.inl (by decide))⟩

/-- C11. On a non-empty sequence `Pick` returns a node `x` of the sequence and no error;
the events it adds to the trace are some events `pre` that are no `Pick()` calls,
followed by the call `x.Pick()`, and the callback it returns is the one this call
produced.  So `Pick()` is called exactly once, on the returned node, and on no other
node. -/
theorem pick_calls_pick_once (s : Balancer) (t : Trace W) (nodes : List (WeightedNode W))
    (hne : nodes ≠ []) :
    ∃ x s1 pre,
      s.Pick t nodes
        = some ({ node := some x, done := some (x.Pick (t ++ pre)).1, err := none },
                s1, t ++ (pre ++ [Event.pick x]))
      ∧ x ∈ nodes
      ∧ pickedNodes pre = []
      ∧ pickedNodes (pre ++ [Event.pick x]) = [x]
      ∧ ∀ y, y ≠ x → y ∉ pickedNodes (pre ++ [Event.pick x]) := by
  match nodes, hne with
  | [x], _ =>
    refine ⟨x, s, [], ?_, by simp, rfl, rfl, ?_⟩
    · simp [pick_single, WeightedNode.Pick]
    · intro y hy hmem
      simp [pickedNodes, Event.receiver] at hmem
      exact hy hmem
  | x :: y :: rest, _ =>
    have h := draws_exist s (n := (x :: y :: rest).length) (by simp)
    obtain ⟨nodeA, nodeB, hA, hB⟩ := drawn_nodes_exist h
    obtain ⟨z, mid, hz, hmid, hpick⟩ := Pick_trace t h hA hB
    have hpre : pickedNodes (drawEvents W (x :: y :: rest).length
        (s.r.peek 0 % (x :: y :: rest).length)
        (s.r.peek 1 % ((x :: y :: rest).length - 1)) ++ mid) = [] := by
      rcases hmid with rfl | rfl | rfl <;> simp [pickedNodes, drawEvents, Event.receiver]
    have hall : pickedNodes (drawEvents W (x :: y :: rest).length
        (s.r.peek 0 % (x :: y :: rest).length)
        (s.r.peek 1 % ((x :: y :: rest).length - 1)) ++ mid ++ [Event.pick z]) = [z] := by
      rcases hmid with rfl | rfl | rfl <;> simp [pickedNodes, drawEvents, Event.receiver]
    refine ⟨z, _, _, hpick, ?_, hpre, hall, ?_⟩
    · rcases hz with rfl | rfl
      · exact List.getElem?_mem hA
      · exact List.getElem?_mem hB
    · intro w hw hmem
      rw [hall, List.mem_singleton] at hmem
      exact hw hmem

/-- Witness for C11: weight 5 against an idle node of weight 1, flag free. -/
theorem pick_calls_pick_once_witness :
    ∃ x s1 pre,
      (balancerOf 0 0).Pick [] [nodeW5, nodeIdle]
        = some ({ node := some x, done := some (x.Pick ([] ++ pre)).1, err := none },
                s1, [] ++ (pre ++ [Event.pick x]))
      ∧ x ∈ [nodeW5, nodeIdle]
      ∧ pickedNodes pre = []
      ∧ pickedNodes (pre ++ [Event.pick x]) = [x]
      ∧ ∀ y, y ≠ x → y ∉ pickedNodes (pre ++ [Event.pick x]) :=
  pick_calls_pick_once (balancerOf 0 0) [] [nodeW5, nodeIdle] (by decide)

/-- C13. In a sequential run every call of `Pick` returns and leaves the flag `lk` with
the value it had on entry, whatever that value and the input are; its trace has a
store exactly when it has a successful compare-and-swap.  Hence every sequence of
`Pick` calls on a freshly built balancer completes with `lk = 0`. -/
theorem pick_restores_flag :
    (∀ (s : Balancer) (t : Trace W) (nodes : List (WeightedNode W)),
      ∃ res s1 ext, s.Pick t nodes = some (res, s1, t ++ ext)
        ∧ s1.lk = s.lk
        ∧ (Event.cas true ∈ ext ↔ Event.store ∈ ext))
    ∧ (∀ (r : Rand) (calls : List (List (WeightedNode W))),
      ∃ s1 t1, runPicks (Builder.Build r) [] calls = some (s1, t1) ∧ s1.lk = 0) := by
  constructor
  · intro s t nodes
    obtain ⟨res, s1, ext, hpick, hlk, hcas, _⟩ := Pick_summary s t nodes
    exact ⟨res, s1, ext, hpick, hlk, hcas⟩
  · intro r calls
    exact runPicks_lk calls (Builder.Build r) [] rfl

/-- C14. `Pick` returns on every input sequence.  It draws random numbers exactly when
the sequence has two or more nodes, and every bound it passes to `Intn` is positive;
`prePick` on its own succeeds exactly on sequences of two or more nodes, so it would
fail on the lengths 0 and 1, which `Pick` handles without drawing. -/
theorem pick_total (s : Balancer) (t : Trace W) (nodes : List (WeightedNode W)) :
    (∃ res s1 ext, s.Pick t nodes = some (res, s1, t ++ ext)
        ∧ ((∃ n v, Event.intn n v ∈ ext) ↔ 2 ≤ nodes.length)
        ∧ ∀ n v, Event.intn n v ∈ ext → 0 < n)
    ∧ ((s.prePick t nodes).isSome ↔ 2 ≤ nodes.length) := by
  obtain ⟨res, s1, ext, hpick, _, _, hdraw, hpos⟩ := Pick_summary s t nodes
  exact ⟨⟨res, s1, ext, hpick, hdraw, hpos⟩, prePick_isSome_iff s t nodes⟩

/-- C15. Two runs of `Pick` from the same balancer state (same draws `a`, `b`, same flag)
on sequences of the same length `n >= 2` return the node at the same position, `a` or
`adjust a b`, as soon as the two sequences agree, at the two drawn positions, on the
outcome of the weight comparison and on the elapsed time of the node that this
comparison leaves unpicked.  Sequences that agree on weight and elapsed time at the
two drawn positions do so; the other nodes, and the elapsed time of the provisional
pick, are not constrained. -/
theorem pick_depends_on_drawn (s : Balancer) (t1 t2 : Trace W)
    (nodes1 nodes2 : List (WeightedNode W)) (a b : Nat)
    (nodeA1 nodeB1 nodeA2 nodeB2 : WeightedNode W)
    (h : Draws s nodes1.length a b) (hlen : nodes2.length = nodes1.length)
    (hA1 : nodes1[a]? = some nodeA1) (hB1 : nodes1[adjust a b]? = some nodeB1)
    (hA2 : nodes2[a]? = some nodeA2) (hB2 : nodes2[adjust a b]? = some nodeB2)
    (hw : nodeB1.Weight > nodeA1.Weight ↔ nodeB2.Weight > nodeA2.Weight)
    (heA : nodeB1.Weight > nodeA1.Weight → nodeA1.PickElapsed = nodeA2.PickElapsed)
    (heB : ¬ nodeB1.Weight > nodeA1.Weight → nodeB1.PickElapsed = nodeB2.PickElapsed) :
    ∃ i x1 x2 d1 d2 s1 s2 u1 u2,
      (i = a ∨ i = adjust a b)
      ∧ s.Pick t1 nodes1 = some ({ node := some x1, done := some d1, err := none }, s1, u1)
      ∧ s.Pick t2 nodes2 = some ({ node := some x2, done := some d2, err := none }, s2, u2)
      ∧ nodes1[i]? = some x1 ∧ nodes2[i]? = some x2 := by
  have h' : Draws s nodes2.length a b := by rw [hlen]; exact h
  obtain ⟨x1, d1, s1, u1, hp1, hx1⟩ := Pick_position t1 h hA1 hB1
  obtain ⟨x2, d2, s2, u2, hp2, hx2⟩ := Pick_position t2 h' hA2 hB2
  have hidx :
      (nodeB2.Weight > nodeA2.Weight ↔
        ((if nodeB2.Weight > nodeA2.Weight then nodeA2 else nodeB2).PickElapsed > forcePick
          ∧ s.lk = 0))
      ↔ (nodeB1.Weight > nodeA1.Weight ↔
        ((if nodeB1.Weight > nodeA1.Weight then nodeA1 else nodeB1).PickElapsed > forcePick
          ∧ s.lk = 0)) := by
    by_cases hc : nodeB1.Weight > nodeA1.Weight
    · have hc2 := hw.mp hc
      simp only [hc, hc2, if_true, heA hc]
    · have hc2 : ¬ nodeB2.Weight > nodeA2.Weight := fun h2 => hc (hw.mpr h2)
      simp only [hc, hc2, if_false, heB hc]
  simp only [hidx] at hx2
  exact ⟨_, x1, x2, d1, d2, s1, s2, u1, u2, ite_eq_or_eq _ _ _, hp1, hp2, hx1, hx2⟩

/-- Witness for C15: draws 0 and 0 on two three-node sequences that differ in the weight
and elapsed time of the provisional pick and in the third node; both runs return the
node at position 1. -/
theorem pick_depends_on_drawn_witness :
    ∃ i x1 x2 d1 d2 s1 s2 u1 u2,
      (i = 0 ∨ i = adjust 0 0)
      ∧ (balancerOf 0 0).Pick [] [nodeW5, nodeIdle, nodeW1]
          = some ({ node := some x1, done := some d1, err := none }, s1, u1)
      ∧ (balancerOf 0 0).Pick [] [nodeW9, nodeIdle, nodeW5b]
          = some ({ node := some x2, done := some d2, err := none }, s2, u2)
      ∧ [nodeW5, nodeIdle, nodeW1][i]? = some x1
      ∧ [nodeW9, nodeIdle, nodeW5b][i]? = some x2 :=
  pick_depends_on_drawn (balancerOf 0 0) [] [] [nodeW5, nodeIdle, nodeW1]
    [nodeW9, nodeIdle, nodeW5b] 0 0 nodeW5 nodeIdle nodeW9 nodeIdle
    ⟨by decide, by decide, by decide, by decide, by decide⟩ rfl rfl rfl rfl rfl
    (by decide) (fun hc => absurd hc (by decide)) (fun _ => rfl)

/-- C12, as amended.  On a freshly built balancer, in every interleaving of any number of
concurrent `Pick` calls, at most one call at a time holds the flag `lk`, that is, stands
between its successful compare-and-swap (line 90) and its store (line 92); and `lk`
is 1 exactly while some call does. -/
theorem flag_held_by_at_most_one (r : Rand) (inputs : List (List (WeightedNode W)))
    (sched : List Nat) :
    ((System.init r inputs).run sched).calls.countP Call.holdsFlag ≤ 1
      ∧ ((System.init r inputs).run sched).s.lk
          = (((System.init r inputs).run sched).calls.countP Call.holdsFlag : Nat) := by
  have hinit : (System.init r inputs).s.lk
        = ((System.init r inputs).calls.countP Call.holdsFlag : Nat)
      ∧ (System.init r inputs).calls.countP Call.holdsFlag ≤ 1 := by
    have hc : (System.init r inputs).calls.countP Call.holdsFlag = 0 := countP_entry inputs
    rw [hc]
    exact ⟨rfl, Nat.zero_le 1⟩
  obtain ⟨hlk, hle⟩ := System.run_keeps_flag_count sched (System.init r inputs) hinit
  exact ⟨hle, hlk⟩

/-- C12, as stated, fails.  Two calls on the nodes of weight 5 and of weight 1 (idle for
four seconds): the first call runs up to line 94, the second does the same.  Both have
overridden their provisional pick and neither has returned, so two forced picks are
in flight at the same time. -/
theorem forced_picks_not_capped :
    ¬ ∀ sched : List Nat,
        ((System.init (randOf 0 0) [[nodeW5, nodeIdle], [nodeW5, nodeIdle]]).run
          sched).calls.countP Call.forcedInFlight ≤ 1 := by
  intro hcap
  have h2 := hcap [0, 0, 0, 1, 1, 1]
  revert h2
  decide

end Claims

end P2C

